import Mathlib

set_option linter.unusedVariables false

/-!
Verification of the synchronization primitives in `src/pa3.c`
(spinlock, blocking mutex with FIFO wait queue, bounded ring buffer).

Shallow embedding conventions:
* C `int` fields become `Int`; the C `%` operator on `int` truncates toward
  zero, which is `Int.tmod` (on the non-negative operands arising in reachable
  states it agrees with `Int.emod`).
* Each operation's protected section (the region bracketed by the
  `compare_and_swap(&held, 0, 1)` spin and the final `held = 0` store) is
  modelled as one atomic state transition: the `held` flag serializes those
  sections, so interleavings observe only their before/after states.
* `malloc`ed memory is a total function `Int → Int` with arbitrary initial
  contents; allocation success is an explicit `Bool` parameter.
-/

namespace PA3

/-! ## Ring buffer (src/pa3.c lines 220-324)

The C struct is
`{ int nr_slots; int *slots; int held; int count; int out; int in; }`.
`in` is a Lean keyword, so the write index is called `in_` here. -/

structure RingBuffer where
  nr_slots : Int
  slots : Int → Int
  held : Int
  count : Int
  out : Int
  in_ : Int

/-- Embedding of `init_ringbuffer` (lines 313-324).  `allocOk` records whether
`malloc(sizeof(int) * nr_slots)` succeeded and `mem` the (uninitialized)
contents of the allocation.  The C function stores the pointer, resets
`in`/`out`/`count`/`held`, and returns the literal `0` without ever inspecting
the `malloc` result, so the returned status ignores `allocOk`. -/
def init_ringbuffer (nr_slots : Int) (allocOk : Bool) (mem : Int → Int) :
    RingBuffer × Int :=
  ({ nr_slots := nr_slots
     slots := mem
     held := 0
     count := 0
     out := 0
     in_ := 0 }, 0)

/-- Embedding of `enqueue_into_ringbuffer` (lines 242-258).  The outer busy
wait and the re-check under `held` both test `count == nr_slots`; the protected
mutation runs only when that test fails, so the whole call is: block (`none`)
while the buffer is full, otherwise write `value` at `in`, advance `in` by one
modulo `nr_slots`, and increment `count`. -/
def enqueue_into_ringbuffer (value : Int) (rb : RingBuffer) : Option RingBuffer :=
  if rb.count = rb.nr_slots then
    none
  else
    some { rb with
      slots := fun i => if i = rb.in_ then value else rb.slots i
      in_ := (rb.in_ + 1).tmod rb.nr_slots
      count := rb.count + 1
      held := 0 }

/-- Embedding of `dequeue_from_ringbuffer` (lines 269-287).  Blocks (`none`)
while `count == 0`; otherwise remembers `tmp = out`, advances `out` by one
modulo `nr_slots`, decrements `count`, and returns `slots[tmp]`. -/
def dequeue_from_ringbuffer (rb : RingBuffer) : Option (RingBuffer × Int) :=
  if rb.count = 0 then
    none
  else
    some ({ rb with
      out := (rb.out + 1).tmod rb.nr_slots
      count := rb.count - 1
      held := 0 }, rb.slots rb.out)

/-- Reachable ring-buffer states: start from `init_ringbuffer N` (with any
allocation outcome and contents) and apply any number of completed
enqueue/dequeue operations. -/
inductive RBReachable (N : Int) : RingBuffer → Prop
  | init (allocOk : Bool) (mem : Int → Int) :
      RBReachable N (init_ringbuffer N allocOk mem).1
  | enq (v : Int) (rb rb' : RingBuffer) :
      RBReachable N rb → enqueue_into_ringbuffer v rb = some rb' → RBReachable N rb'
  | deq (rb : RingBuffer) (p : RingBuffer × Int) :
      RBReachable N rb → dequeue_from_ringbuffer rb = some p → RBReachable N p.1

/-- Inductive invariant of the ring buffer for a positive capacity `N`:
the occupancy count stays within `[0, N]`, both indices stay within `[0, N)`,
and the write index is the read index shifted by the count, modulo `N`. -/
def RBInv (N : Int) (rb : RingBuffer) : Prop :=
  rb.nr_slots = N ∧
  0 ≤ rb.count ∧ rb.count ≤ N ∧
  0 ≤ rb.out ∧ rb.out < N ∧
  0 ≤ rb.in_ ∧ rb.in_ < N ∧
  rb.in_ = (rb.out + rb.count) % N

/-- Abstraction (not in the C source): the list of values currently stored in
the buffer, read in FIFO order starting at the read index `out`. -/
def rbContents (rb : RingBuffer) : List Int :=
  (List.range rb.count.toNat).map fun k : Nat =>
    rb.slots ((rb.out + (k : Int)) % rb.nr_slots)

/-- One completed ring-buffer operation of a producer/consumer execution. -/
inductive RBOp
  | enq (v : Int)
  | deq

/-- Run a sequence of completed operations, threading the buffer state and
collecting the dequeued values in order.  The `held` flag serializes each
operation's protected section, so any producer/consumer interleaving observes
the buffer as some such sequence; an operation whose guard blocks it simply
completes later, i.e. appears later in the sequence, so a trace firing a
blocked operation is invalid (`none`). -/
def runTrace : List RBOp → RingBuffer → Option (RingBuffer × List Int)
  | [], rb => some (rb, [])
  | RBOp.enq v :: ops, rb =>
    (enqueue_into_ringbuffer v rb).bind fun rb' => runTrace ops rb'
  | RBOp.deq :: ops, rb =>
    (dequeue_from_ringbuffer rb).bind fun p =>
      (runTrace ops p.1).map fun q => (q.1, p.2 :: q.2)

/-- Values enqueued by a sequence of operations, in order. -/
def enqValues : List RBOp → List Int
  | [] => []
  | RBOp.enq v :: ops => v :: enqValues ops
  | RBOp.deq :: ops => enqValues ops

/-! ## Blocking mutex (src/pa3.c lines 83-218)

The C state is `struct mutex { struct list_head Q; int S; int held; }` with
waiter records `struct thread { pthread_t pthread; struct list_head list; }`.
The intrusive-list helpers (`list_add_tail`, `list_del_init`,
`list_first_entry`) come from the missing header `list_head.h`; following the
spec ("an ordered sequence (FIFO) of Waiters"), the queue is modelled from the
spec as a Lean list whose head is the earliest-enqueued waiter, `list_add_tail`
as appending at the tail, `list_del_init` of the first entry as taking the
tail of the list, and `list_first_entry` as the head.  The `held` flag
serializes each operation's critical section, which the atomic-step model
reflects, so it is not part of the abstract state. -/

/-- Waiter record (`struct thread`, lines 86-90): `pthread` identifies the
waiting thread (`pthread_self()`); `since` is model bookkeeping only — a
logical timestamp recording when the thread began waiting, used to state the
FIFO ordering of the queue. -/
structure Waiter where
  pthread : Nat
  since : Nat

/-- Mutex state (`struct mutex`, lines 92-97) plus a model-only logical
`clock` that advances on every operation and stamps new waiters. -/
structure MutexState where
  Q : List Waiter
  S : Int
  clock : Nat

/-- Embedding of `init_mutex` (lines 106-114): empty queue, `S = 1`. -/
def init_mutex : MutexState :=
  { Q := [], S := 1, clock := 0 }

/-- Embedding of the protected section of `acquire_mutex` (lines 148-186) for
calling thread `t`: decrement `S`; if the decremented `S` is negative, append
a waiter identifying the caller at the tail of `Q` (`list_add_tail`, line 164)
and block until signalled; otherwise return at once with the queue untouched. -/
def acquire_mutex (t : Nat) (m : MutexState) : MutexState :=
  if m.S - 1 < 0 then
    { Q := m.Q ++ [{ pthread := t, since := m.clock }], S := m.S - 1,
      clock := m.clock + 1 }
  else
    { Q := m.Q, S := m.S - 1, clock := m.clock + 1 }

/-- Embedding of `release_mutex` (lines 198-218): increment `S`; if the
incremented `S` is ≤ 0, remove the first queue entry (`list_first_entry` +
`list_del_init`, lines 209-210) and direct a wake signal at exactly that
waiter (`pthread_kill(next->pthread, SIGINT)`, line 213), returned here as the
second component; otherwise no waiter is touched and no signal is sent.
(`list_first_entry` on an empty queue is undefined behavior in C; it is
unreachable, as proved below, and modelled by `head? = none`.) -/
def release_mutex (m : MutexState) : MutexState × Option Waiter :=
  if m.S + 1 ≤ 0 then
    ({ Q := m.Q.tail, S := m.S + 1, clock := m.clock + 1 }, m.Q.head?)
  else
    ({ Q := m.Q, S := m.S + 1, clock := m.clock + 1 }, none)

/-- Lifecycle events of the waiter record `new` inside one `acquire_mutex`
call, in program order: `malloc` at entry (line 152), `list_add_tail` only on
the blocking path (line 164), and `free(new)` before returning on every path
(line 183). -/
inductive WaiterEvent
  | alloc
  | link
  | free

/-- Waiter-record events performed by `acquire_mutex` on a mutex in state `m`,
read off the code's control flow. -/
def acquire_mutex_waiter_events (m : MutexState) : List WaiterEvent :=
  if m.S - 1 < 0 then
    [WaiterEvent.alloc, WaiterEvent.link, WaiterEvent.free]
  else
    [WaiterEvent.alloc, WaiterEvent.free]

/-- Mutex states reachable from `init_mutex` by acquire/release steps. -/
inductive MutexReachable : MutexState → Prop
  | init : MutexReachable init_mutex
  | acq (t : Nat) (m : MutexState) :
      MutexReachable m → MutexReachable (acquire_mutex t m)
  | rel (m : MutexState) :
      MutexReachable m → MutexReachable (release_mutex m).1

/-- Inductive invariant of the mutex: when `S ≤ 0` the queue holds exactly
`-S` waiters; when `S > 0` it is empty; waiters appear in strictly increasing
order of when they began waiting, all earlier than the current clock. -/
def MutexInv (m : MutexState) : Prop :=
  (m.S ≤ 0 → (m.Q.length : Int) = -m.S) ∧
  (0 < m.S → m.Q = []) ∧
  List.Pairwise (fun a b => a.since < b.since) m.Q ∧
  (∀ w ∈ m.Q, w.since < m.clock)

/-! ## Interleaved concurrency model (spinlock lines 32-81, mutex lines 83-218)

Threads are identified by naturals.  A system state pairs the shared lock
state with every thread's control state with respect to that lock; one step is
one atomic action (a `compare_and_swap`, or one lock-protected section). -/

/-- Modelled from the spec: `compare_and_swap(&cell, expected, newval)` from
the missing header `atomic.h` — the spec's glossary CAS: atomically writes the
new value only if the cell holds the expected value, reporting the previous
cell value.  Result: (new cell contents, reported previous value); the C
call sites loop `while (compare_and_swap(&held, 0, 1))`, i.e. until the
reported previous value is 0. -/
def compare_and_swap (cell expected newval : Int) : Int × Int :=
  if cell = expected then (newval, cell) else (cell, cell)

/-- Pointwise update of a per-thread state map. -/
def updPC {α : Type} (f : Nat → α) (i : Nat) (v : α) : Nat → α :=
  fun j => if j = i then v else f j

/-- Control state of a thread with respect to one spinlock: `outside` (not in
the critical section; a thread spinning in `acquire_spinlock` has not yet
changed shared state) or `inside` (returned from `acquire_spinlock`, has not
yet called `release_spinlock`). -/
inductive SpinPC
  | outside
  | inside

/-- Shared spinlock (`struct spinlock { int held; }`, lines 35-38) plus every
thread's control state. -/
structure SpinSys where
  held : Int
  pc : Nat → SpinPC

/-- State after `init_spinlock` (lines 46-50): lock free, no thread inside. -/
def initSpinSys : SpinSys :=
  { held := 0, pc := fun _ => SpinPC.outside }

/-- One atomic step of threads using one spinlock.  `cas` is a successful
`compare_and_swap(&l->held, 0, 1)` in `acquire_spinlock` (line 63): the caller
leaves the spin loop and is inside the critical section; `casFail` is an
unsuccessful attempt (the loop continues; shared state unchanged); `rel` is
`release_spinlock` (line 79, `l->held = 0`) by a thread inside. -/
inductive SpinStep : SpinSys → SpinSys → Prop
  | cas (i : Nat) (s : SpinSys) (hpc : s.pc i = SpinPC.outside)
      (hwin : (compare_and_swap s.held 0 1).2 = 0) :
      SpinStep s { held := (compare_and_swap s.held 0 1).1
                   pc := updPC s.pc i SpinPC.inside }
  | casFail (i : Nat) (s : SpinSys) (hpc : s.pc i = SpinPC.outside)
      (hlose : (compare_and_swap s.held 0 1).2 ≠ 0) :
      SpinStep s { held := (compare_and_swap s.held 0 1).1
                   pc := s.pc }
  | rel (i : Nat) (s : SpinSys) (hpc : s.pc i = SpinPC.inside) :
      SpinStep s { held := 0, pc := updPC s.pc i SpinPC.outside }

/-- Spinlock system states reachable from `init_spinlock` under any
interleaving of any number of threads. -/
inductive SpinReachable : SpinSys → Prop
  | init : SpinReachable initSpinSys
  | step (s s' : SpinSys) : SpinReachable s → SpinStep s s' → SpinReachable s'

/-- Invariant: at most one thread is inside the spinlock's critical section,
and none is when the lock is free. -/
def SpinInv (s : SpinSys) : Prop :=
  (∀ i j, s.pc i = SpinPC.inside → s.pc j = SpinPC.inside → i = j) ∧
  (s.held = 0 → ∀ i, s.pc i ≠ SpinPC.inside)

/-- Control state of a thread with respect to one blocking mutex: `outside`
(not holding, not waiting), `waiting` (enqueued, blocked in `sigwait`),
`signaled` (dequeued by `release_mutex` and sent the directed `SIGINT`, not
yet resumed), `inside` (returned from `acquire_mutex`, holds the mutex). -/
inductive MtxPC
  | outside
  | waiting
  | signaled
  | inside

/-- Shared mutex (counter and wait queue of thread ids, `struct mutex`, lines
92-97) plus every thread's control state; the internal `held` flag serializes
the operations, which the atomic-step model reflects. -/
structure MtxSys where
  S : Int
  Q : List Nat
  pc : Nat → MtxPC

/-- State after `init_mutex`: `S = 1`, empty queue, no thread involved. -/
def initMtxSys : MtxSys :=
  { S := 1, Q := [], pc := fun _ => MtxPC.outside }

/-- One atomic step of threads using one blocking mutex, read off
`acquire_mutex` (lines 148-186) and `release_mutex` (lines 198-218):
`acqFast` — decrement leaves `S ≥ 0`, caller proceeds straight inside;
`acqBlock` — decrement leaves `S < 0`, caller enqueues itself at the tail and
blocks; `relWake` — increment leaves `S ≤ 0`, holder dequeues the head waiter
and sends it a directed signal; `relFast` — increment leaves `S > 0`, pure
counter bump; `wake` — a signaled thread resumes from `sigwait` and returns
from `acquire_mutex`, now inside. -/
inductive MtxStep : MtxSys → MtxSys → Prop
  | acqFast (i : Nat) (s : MtxSys) (hpc : s.pc i = MtxPC.outside)
      (hS : 0 ≤ s.S - 1) :
      MtxStep s { S := s.S - 1, Q := s.Q, pc := updPC s.pc i MtxPC.inside }
  | acqBlock (i : Nat) (s : MtxSys) (hpc : s.pc i = MtxPC.outside)
      (hS : s.S - 1 < 0) :
      MtxStep s { S := s.S - 1, Q := s.Q ++ [i]
                  pc := updPC s.pc i MtxPC.waiting }
  | relWake (i h : Nat) (s : MtxSys) (rest : List Nat)
      (hpc : s.pc i = MtxPC.inside) (hS : s.S + 1 ≤ 0) (hQ : s.Q = h :: rest) :
      MtxStep s { S := s.S + 1, Q := rest
                  pc := updPC (updPC s.pc i MtxPC.outside) h MtxPC.signaled }
  | relFast (i : Nat) (s : MtxSys) (hpc : s.pc i = MtxPC.inside)
      (hS : 0 < s.S + 1) :
      MtxStep s { S := s.S + 1, Q := s.Q, pc := updPC s.pc i MtxPC.outside }
  | wake (i : Nat) (s : MtxSys) (hpc : s.pc i = MtxPC.signaled) :
      MtxStep s { S := s.S, Q := s.Q, pc := updPC s.pc i MtxPC.inside }

/-- Mutex system states reachable from `init_mutex` under any interleaving of
any number of threads. -/
inductive MtxReachable : MtxSys → Prop
  | init : MtxReachable initMtxSys
  | step (s s' : MtxSys) : MtxReachable s → MtxStep s s' → MtxReachable s'

/-- A thread that holds the mutex or has been granted it by a directed wake
signal (it will enter the critical section without consulting `S` again). -/
def mtxActive (pcf : Nat → MtxPC) (i : Nat) : Prop :=
  pcf i = MtxPC.inside ∨ pcf i = MtxPC.signaled

/-- Inductive invariant of the interleaved mutex system: at most one thread is
active (holding or granted), queue members are exactly waiting threads without
duplicates, and `S` counts `1 - (active) - (queue length)`. -/
def MtxInv (s : MtxSys) : Prop :=
  (∀ i j, mtxActive s.pc i → mtxActive s.pc j → i = j) ∧
  (∀ i ∈ s.Q, s.pc i = MtxPC.waiting) ∧
  s.Q.Nodup ∧
  ((∃ i, mtxActive s.pc i) → s.S = -(s.Q.length : Int)) ∧
  ((¬ ∃ i, mtxActive s.pc i) → s.S = 1 - (s.Q.length : Int))

/-- Example spinlock system: thread 0 has taken the lock with one CAS. -/
def exSpin : SpinSys :=
  { held := (compare_and_swap initSpinSys.held 0 1).1
    pc := updPC initSpinSys.pc 0 SpinPC.inside }

/-- Example mutex system: thread 1 has acquired the fresh mutex uncontended. -/
def exMtxSys : MtxSys :=
  { S := initMtxSys.S - 1, Q := initMtxSys.Q
    pc := updPC initMtxSys.pc 1 MtxPC.inside }

/-- Example allocation contents used by concrete witnesses. -/
def exMem : Int → Int := fun _ => 0

/-- Example mutex state: threads 0 and 1 have called `acquire_mutex` on a
fresh mutex; thread 0 holds it and thread 1 waits (`S = -1`). -/
def exMtx : MutexState := acquire_mutex 1 (acquire_mutex 0 init_mutex)

/-- Example buffer: a freshly initialized ring buffer of capacity 2. -/
def exRB : RingBuffer := (init_ringbuffer 2 true exMem).1

/-- Example buffer of capacity 0: simultaneously full and empty. -/
def exRB0 : RingBuffer := (init_ringbuffer 0 true exMem).1

/-- Example trace: enqueue 5 and 7, then dequeue twice. -/
def exOps : List RBOp := [RBOp.enq 5, RBOp.enq 7, RBOp.deq, RBOp.deq]

/-- Final buffer state after running `exOps` on `exRB`. -/
def exFinal : RingBuffer :=
  { nr_slots := 2
    slots := fun i => if i = 1 then 7 else if i = 0 then 5 else exMem i
    held := 0
    count := 0
    out := 0
    in_ := 0 }

end PA3

namespace PA3

theorem rbReachable_nr_slots {N : Int} {rb : RingBuffer} (h : RBReachable N rb) :
    rb.nr_slots = N := by
  induction h with
  | init allocOk mem => rfl
  | enq v rb rb' _ hstep ih =>
    rw [enqueue_into_ringbuffer] at hstep
    split at hstep
    · exact absurd hstep (by simp)
    · cases hstep
      exact ih
  | deq rb p _ hstep ih =>
    rw [dequeue_from_ringbuffer] at hstep
    split at hstep
    · exact absurd hstep (by simp)
    · cases hstep
      exact ih

theorem rbInv_init (N : Int) (hN : 0 < N) (allocOk : Bool) (mem : Int → Int) :
    RBInv N (init_ringbuffer N allocOk mem).1 := by
  refine ⟨rfl, le_refl 0, le_of_lt hN, le_refl 0, hN, le_refl 0, hN, ?_⟩
  simp [init_ringbuffer]

theorem rbInv_enq {N : Int} (hN : 0 < N) {v : Int} {rb rb' : RingBuffer}
    (hinv : RBInv N rb) (hstep : enqueue_into_ringbuffer v rb = some rb') :
    RBInv N rb' := by
  obtain ⟨hns, hc0, hcN, ho0, hoN, hi0, hiN, hio⟩ := hinv
  rw [enqueue_into_ringbuffer] at hstep
  split at hstep
  · exact absurd hstep (by simp)
  · rename_i hfull
    cases hstep
    have hlt : rb.count < N := lt_of_le_of_ne hcN (by rw [hns] at hfull; exact hfull)
    have htm : (rb.in_ + 1).tmod rb.nr_slots = (rb.in_ + 1) % N := by
      rw [hns]
      exact Int.tmod_eq_emod (by omega) (le_of_lt hN)
    simp only [RBInv]
    refine ⟨hns, by omega, by omega, ho0, hoN, ?_, ?_, ?_⟩
    · rw [htm]
      exact Int.emod_nonneg _ (ne_of_gt hN)
    · rw [htm]
      exact Int.emod_lt_of_pos _ hN
    · rw [htm, hio, Int.emod_add_emod]
      congr 1
      omega

theorem rbInv_deq {N : Int} (hN : 0 < N) {rb : RingBuffer} {p : RingBuffer × Int}
    (hinv : RBInv N rb) (hstep : dequeue_from_ringbuffer rb = some p) :
    RBInv N p.1 := by
  obtain ⟨hns, hc0, hcN, ho0, hoN, hi0, hiN, hio⟩ := hinv
  rw [dequeue_from_ringbuffer] at hstep
  split at hstep
  · exact absurd hstep (by simp)
  · rename_i hempty
    cases hstep
    have htm : (rb.out + 1).tmod rb.nr_slots = (rb.out + 1) % N := by
      rw [hns]
      exact Int.tmod_eq_emod (by omega) (le_of_lt hN)
    simp only [RBInv]
    refine ⟨hns, by omega, by omega, ?_, ?_, hi0, hiN, ?_⟩
    · rw [htm]
      exact Int.emod_nonneg _ (ne_of_gt hN)
    · rw [htm]
      exact Int.emod_lt_of_pos _ hN
    · rw [htm, Int.emod_add_emod, hio]
      congr 1
      omega

theorem rbInv_of_reachable {N : Int} (hN : 0 < N) {rb : RingBuffer}
    (h : RBReachable N rb) : RBInv N rb := by
  induction h with
  | init allocOk mem => exact rbInv_init N hN allocOk mem
  | enq v rb rb' _ hstep ih => exact rbInv_enq hN ih hstep
  | deq rb p _ hstep ih => exact rbInv_deq hN ih hstep

theorem rbReachable_zero {rb : RingBuffer} (h : RBReachable 0 rb) :
    rb.count = 0 := by
  induction h with
  | init allocOk mem => rfl
  | enq v rb rb' hr hstep ih =>
    rw [enqueue_into_ringbuffer] at hstep
    split at hstep
    · exact absurd hstep (by simp)
    · rename_i hfull
      exact absurd (ih.trans (rbReachable_nr_slots hr).symm) hfull
  | deq rb p hr hstep ih =>
    rw [dequeue_from_ringbuffer] at hstep
    split at hstep
    · exact absurd hstep (by simp)
    · rename_i hempty
      exact absurd ih hempty

/-- C1: `init_ringbuffer` never reports failure: the code returns the literal
`0` on every path, even when the slot allocation fails (`allocOk = false`),
contradicting its own header comment ("RETURN: 0 on success. Other values
otherwise.") and the spec's claim that allocation failure is surfaced as a
nonzero status. -/
theorem C1_init_ringbuffer_returns_zero_on_alloc_failure
    (nr_slots : Int) (mem : Int → Int) :
    (init_ringbuffer nr_slots false mem).2 = 0 := rfl

/-- C5: on any buffer state with `count < nr_slots`, enqueue stores the value
at the current write index `in`, advances `in` by one modulo the capacity,
increments `count`, and leaves every other slot, the read index `out`, and the
capacity unchanged. -/
theorem C5_enqueue_effect (rb : RingBuffer) (value : Int)
    (h : rb.count < rb.nr_slots) :
    ∃ rb', enqueue_into_ringbuffer value rb = some rb' ∧
      rb'.slots rb.in_ = value ∧
      rb'.in_ = (rb.in_ + 1).tmod rb.nr_slots ∧
      rb'.count = rb.count + 1 ∧
      (∀ i, i ≠ rb.in_ → rb'.slots i = rb.slots i) ∧
      rb'.out = rb.out ∧
      rb'.nr_slots = rb.nr_slots := by
  refine ⟨{ rb with
      slots := fun i => if i = rb.in_ then value else rb.slots i
      in_ := (rb.in_ + 1).tmod rb.nr_slots
      count := rb.count + 1
      held := 0 }, ?_, ?_, rfl, rfl, ?_, rfl, rfl⟩
  · rw [enqueue_into_ringbuffer, if_neg (ne_of_lt h)]
  · simp
  · intro i hi
    simp [hi]

/-- Witness for C5 on a concrete input: a fresh buffer of capacity 2. -/
theorem C5_enqueue_effect_witness :
    ∃ rb', enqueue_into_ringbuffer 5 (init_ringbuffer 2 true (fun _ => 0)).1 = some rb' ∧
      rb'.slots (init_ringbuffer 2 true (fun _ => 0)).1.in_ = 5 ∧
      rb'.in_ = ((init_ringbuffer 2 true (fun _ => 0)).1.in_ + 1).tmod
        (init_ringbuffer 2 true (fun _ => 0)).1.nr_slots ∧
      rb'.count = (init_ringbuffer 2 true (fun _ => 0)).1.count + 1 ∧
      (∀ i, i ≠ (init_ringbuffer 2 true (fun _ => 0)).1.in_ →
        rb'.slots i = (init_ringbuffer 2 true (fun _ => 0)).1.slots i) ∧
      rb'.out = (init_ringbuffer 2 true (fun _ => 0)).1.out ∧
      rb'.nr_slots = (init_ringbuffer 2 true (fun _ => 0)).1.nr_slots :=
  C5_enqueue_effect (init_ringbuffer 2 true (fun _ => 0)).1 5 (by decide)

/-- C6: on any buffer state with `count > 0`, dequeue returns the value stored
at the current read index `out`, advances `out` by one modulo the capacity,
decrements `count`, and leaves the slots, the write index `in`, and the
capacity unchanged. -/
theorem C6_dequeue_effect (rb : RingBuffer) (h : 0 < rb.count) :
    ∃ rb' v, dequeue_from_ringbuffer rb = some (rb', v) ∧
      v = rb.slots rb.out ∧
      rb'.out = (rb.out + 1).tmod rb.nr_slots ∧
      rb'.count = rb.count - 1 ∧
      rb'.slots = rb.slots ∧
      rb'.in_ = rb.in_ ∧
      rb'.nr_slots = rb.nr_slots := by
  refine ⟨{ rb with
      out := (rb.out + 1).tmod rb.nr_slots
      count := rb.count - 1
      held := 0 }, rb.slots rb.out, ?_, rfl, rfl, rfl, rfl, rfl, rfl⟩
  rw [dequeue_from_ringbuffer, if_neg (ne_of_gt h)]

/-- Witness for C6 on a concrete input: a buffer of capacity 2 holding one
value. -/
theorem C6_dequeue_effect_witness :
    ∃ rb' v, dequeue_from_ringbuffer
        { nr_slots := 2, slots := fun _ => 7, held := 0, count := 1, out := 0, in_ := 1 }
        = some (rb', v) ∧
      v = 7 ∧ rb'.out = 1 ∧ rb'.count = 0 ∧
      rb'.slots = (fun _ => (7 : Int)) ∧ rb'.in_ = 1 ∧ rb'.nr_slots = 2 :=
  C6_dequeue_effect
    { nr_slots := 2, slots := fun _ => 7, held := 0, count := 1, out := 0, in_ := 1 }
    (by decide)

/-- C4: for every state reachable from `init_ringbuffer N` (capacity taken as
nonnegative, as in the spec's data model), the occupancy count lies in
`[0, N]`; enqueue performs no mutation (keeps waiting) while `count = N`, and
dequeue performs no mutation while `count = 0`. -/
theorem C4_count_bounds_and_blocking (N : Int) (rb : RingBuffer)
    (hN : 0 ≤ N) (h : RBReachable N rb) :
    (0 ≤ rb.count ∧ rb.count ≤ N) ∧
    (∀ v, rb.count = N → enqueue_into_ringbuffer v rb = none) ∧
    (rb.count = 0 → dequeue_from_ringbuffer rb = none) := by
  have hns := rbReachable_nr_slots h
  refine ⟨?_, fun v hfull => ?_, fun hempty => ?_⟩
  · rcases lt_or_eq_of_le hN with hpos | hzero
    · obtain ⟨_, hc0, hcN, _⟩ := rbInv_of_reachable hpos h
      exact ⟨hc0, hcN⟩
    · have h0 : RBReachable 0 rb := by rw [hzero]; exact h
      have := rbReachable_zero h0
      omega
  · rw [enqueue_into_ringbuffer, if_pos (by rw [hns]; exact hfull)]
  · rw [dequeue_from_ringbuffer, if_pos hempty]

/-- Witness for C4 at the concrete reachable state `exRB0` (capacity 0, which
is both full and empty, so both blocking conclusions fire). -/
theorem C4_count_bounds_and_blocking_witness :
    (0 ≤ exRB0.count ∧ exRB0.count ≤ 0) ∧
    enqueue_into_ringbuffer 9 exRB0 = none ∧
    dequeue_from_ringbuffer exRB0 = none :=
  ⟨(C4_count_bounds_and_blocking 0 exRB0 (by decide) (RBReachable.init true exMem)).1,
   (C4_count_bounds_and_blocking 0 exRB0 (by decide) (RBReachable.init true exMem)).2.1 9 rfl,
   (C4_count_bounds_and_blocking 0 exRB0 (by decide) (RBReachable.init true exMem)).2.2 rfl⟩

/-- C9: for every state reachable from `init_ringbuffer N` with `N > 0`, the
write index `in` and the read index `out` lie strictly within `[0, N)`, so the
slot write `slots[in]` in enqueue and the slot read `slots[tmp]` (with
`tmp = out`) in dequeue stay inside the allocated array of `N` slots. -/
theorem C9_indices_in_bounds (N : Int) (rb : RingBuffer)
    (hN : 0 < N) (h : RBReachable N rb) :
    (0 ≤ rb.in_ ∧ rb.in_ < N) ∧ (0 ≤ rb.out ∧ rb.out < N) := by
  obtain ⟨_, _, _, ho0, hoN, hi0, hiN, _⟩ := rbInv_of_reachable hN h
  exact ⟨⟨hi0, hiN⟩, ⟨ho0, hoN⟩⟩

/-- Witness for C9 at the concrete reachable state `exRB` (capacity 2). -/
theorem C9_indices_in_bounds_witness :
    (0 ≤ exRB.in_ ∧ exRB.in_ < 2) ∧ (0 ≤ exRB.out ∧ exRB.out < 2) :=
  C9_indices_in_bounds 2 exRB (by decide) (RBReachable.init true exMem)

theorem rbContents_enq {N : Int} (hN : 0 < N) {v : Int} {rb rb' : RingBuffer}
    (hinv : RBInv N rb) (hstep : enqueue_into_ringbuffer v rb = some rb') :
    rbContents rb' = rbContents rb ++ [v] := by
  obtain ⟨hns, hc0, hcN, ho0, hoN, hi0, hiN, hio⟩ := hinv
  rw [enqueue_into_ringbuffer] at hstep
  split at hstep
  · exact absurd hstep (by simp)
  · rename_i hfull
    cases hstep
    have hlt : rb.count < N := lt_of_le_of_ne hcN (by rw [hns] at hfull; exact hfull)
    have hc1 : (rb.count + 1).toNat = rb.count.toNat + 1 := by omega
    have hcc : (rb.count.toNat : Int) = rb.count := Int.toNat_of_nonneg hc0
    have hkey : ∀ k : Nat, (k : Int) < rb.count → ((rb.out + k) % N) ≠ rb.in_ := by
      intro k hk hEq
      rw [hio] at hEq
      have h1 : ((rb.out + (k : Int)) - (rb.out + rb.count)) % N = 0 :=
        Int.emod_eq_emod_iff_emod_sub_eq_zero.1 hEq
      have h2 : N ∣ ((k : Int) - rb.count) := by
        have hsub : (rb.out + (k : Int)) - (rb.out + rb.count) = (k : Int) - rb.count := by
          ring
        rw [hsub] at h1
        exact Int.dvd_of_emod_eq_zero h1
      have h3 : (k : Int) - rb.count = 0 := by
        refine Int.eq_zero_of_abs_lt_dvd h2 ?_
        rw [abs_sub_lt_iff]
        constructor <;> omega
      omega
    simp only [rbContents, hns, hc1, List.range_succ, List.map_append, List.map_cons,
      List.map_nil]
    have hcond : (rb.out + (rb.count.toNat : Int)) % N = rb.in_ := by
      rw [hcc, hio]
    refine congrArg₂ (fun l₁ l₂ : List Int => l₁ ++ l₂) ?_ ?_
    · refine List.map_congr_left ?_
      intro k hk
      have hklt : (k : Int) < rb.count := by
        have := List.mem_range.1 hk
        omega
      simp only [if_neg (hkey k hklt)]
    · rw [if_pos hcond]

theorem rbContents_deq {N : Int} (hN : 0 < N) {rb : RingBuffer} {p : RingBuffer × Int}
    (hinv : RBInv N rb) (hstep : dequeue_from_ringbuffer rb = some p) :
    rbContents rb = p.2 :: rbContents p.1 := by
  obtain ⟨hns, hc0, hcN, ho0, hoN, hi0, hiN, hio⟩ := hinv
  rw [dequeue_from_ringbuffer] at hstep
  split at hstep
  · exact absurd hstep (by simp)
  · rename_i hempty
    cases hstep
    have hc1 : rb.count.toNat = (rb.count - 1).toNat + 1 := by omega
    have htm : (rb.out + 1).tmod N = (rb.out + 1) % N :=
      Int.tmod_eq_emod (by omega) (le_of_lt hN)
    have hrange : List.range rb.count.toNat
        = 0 :: List.map Nat.succ (List.range ((rb.count - 1).toNat)) := by
      rw [hc1, List.range_succ_eq_map]
    dsimp only
    rw [rbContents, rbContents, hrange, List.map_cons, List.map_map]
    simp only [hns, htm]
    congr 1
    · simp only [Nat.cast_zero, add_zero]
      rw [Int.emod_eq_of_lt ho0 hoN]
    · refine List.map_congr_left ?_
      intro k hk
      simp only [Function.comp_apply]
      rw [Int.emod_add_emod]
      congr 2
      push_cast
      omega

theorem runTrace_fifo {N : Int} (hN : 0 < N) (ops : List RBOp) :
    ∀ rb : RingBuffer, RBInv N rb →
      ∀ rbf outs, runTrace ops rb = some (rbf, outs) →
        rbContents rb ++ enqValues ops = outs ++ rbContents rbf := by
  induction ops with
  | nil =>
    intro rb hinv rbf outs h
    simp only [runTrace, Option.some_inj, Prod.mk.injEq] at h
    obtain ⟨rfl, rfl⟩ := h
    simp [enqValues]
  | cons op ops ih =>
    intro rb hinv rbf outs h
    cases op with
    | enq v =>
      rw [runTrace] at h
      obtain ⟨rb', hstep, hrec0⟩ := Option.bind_eq_some.1 h
      have hrec := ih rb' (rbInv_enq hN hinv hstep) rbf outs hrec0
      calc rbContents rb ++ enqValues (RBOp.enq v :: ops)
          = (rbContents rb ++ [v]) ++ enqValues ops := by
            simp [enqValues]
        _ = rbContents rb' ++ enqValues ops := by
            rw [rbContents_enq hN hinv hstep]
        _ = outs ++ rbContents rbf := hrec
    | deq =>
      rw [runTrace] at h
      obtain ⟨p, hstep, hrest⟩ := Option.bind_eq_some.1 h
      obtain ⟨q, hrun, hq⟩ := Option.map_eq_some'.1 hrest
      obtain ⟨rb', x⟩ := p
      obtain ⟨rbf', outs'⟩ := q
      cases hq
      have hrec := ih rb' (rbInv_deq hN hinv hstep) rbf' outs' hrun
      have hcont := rbContents_deq hN hinv hstep
      calc rbContents rb ++ enqValues (RBOp.deq :: ops)
          = (x :: rbContents rb') ++ enqValues ops := by
            rw [hcont]; simp [enqValues]
        _ = x :: (rbContents rb' ++ enqValues ops) := by simp
        _ = x :: (outs' ++ rbContents rbf') := by rw [hrec]
        _ = (x :: outs') ++ rbContents rbf' := by simp

/-- C7: FIFO round trip in the sequentially-serialized execution model.  For
any capacity `N > 0` and any sequence of completed enqueue/dequeue operations
run from a fresh buffer, the enqueued values equal the dequeued values
followed by what is still stored in the buffer; in particular once the buffer
is drained (`count = 0`) the dequeued sequence is exactly the enqueued
sequence, in order. -/
theorem C7_fifo_roundtrip (N : Int) (ops : List RBOp) (allocOk : Bool)
    (mem : Int → Int) (rbf : RingBuffer) (outs : List Int) (hN : 0 < N)
    (hrun : runTrace ops (init_ringbuffer N allocOk mem).1 = some (rbf, outs)) :
    enqValues ops = outs ++ rbContents rbf ∧
    (rbf.count = 0 → outs = enqValues ops) := by
  have h0 := runTrace_fifo hN ops _ (rbInv_init N hN allocOk mem) rbf outs hrun
  have hcont0 : rbContents (init_ringbuffer N allocOk mem).1 = [] := by
    simp [rbContents, init_ringbuffer]
  rw [hcont0, List.nil_append] at h0
  refine ⟨h0, fun hc => ?_⟩
  have hfin : rbContents rbf = [] := by
    simp [rbContents, hc]
  rw [h0, hfin, List.append_nil]

theorem mutexInv_init : MutexInv init_mutex :=
  ⟨fun h => absurd h (by decide), fun _ => rfl, List.Pairwise.nil,
   fun w hw => absurd hw (List.not_mem_nil w)⟩

theorem mutexInv_acq (t : Nat) (m : MutexState) (hinv : MutexInv m) :
    MutexInv (acquire_mutex t m) := by
  obtain ⟨h1, h2, h3, h4⟩ := hinv
  simp only [MutexInv, acquire_mutex]
  split
  · rename_i hneg
    dsimp only
    refine ⟨?_, ?_, ?_, ?_⟩
    · intro _
      have hlen := h1 (by omega)
      simp only [List.length_append, List.length_cons, List.length_nil]
      push_cast
      omega
    · intro h0
      exact absurd h0 (by omega)
    · rw [List.pairwise_append]
      refine ⟨h3, List.pairwise_singleton _ _, ?_⟩
      intro a ha b hb
      rw [List.mem_singleton] at hb
      rw [hb]
      exact h4 a ha
    · intro w hw
      rcases List.mem_append.1 hw with h | h
      · exact Nat.lt_succ_of_lt (h4 w h)
      · rw [List.mem_singleton] at h
        rw [h]
        exact Nat.lt_succ_self _
  · rename_i hpos
    dsimp only
    refine ⟨?_, fun _ => h2 (by omega), h3, fun w hw => Nat.lt_succ_of_lt (h4 w hw)⟩
    intro _
    have hQ : m.Q = [] := h2 (by omega)
    rw [hQ]
    simp only [List.length_nil, Nat.cast_zero]
    omega

theorem mutexInv_rel (m : MutexState) (hinv : MutexInv m) :
    MutexInv (release_mutex m).1 := by
  obtain ⟨h1, h2, h3, h4⟩ := hinv
  simp only [MutexInv, release_mutex]
  split
  · rename_i hle
    dsimp only
    have hlen : (m.Q.length : Int) = -m.S := h1 (by omega)
    refine ⟨?_, ?_, ?_, ?_⟩
    · intro _
      simp only [List.length_tail]
      omega
    · intro h0
      exact absurd h0 (by omega)
    · cases hQ : m.Q with
      | nil => exact List.Pairwise.nil
      | cons a l =>
        rw [hQ] at h3
        exact h3.of_cons
    · intro w hw
      exact Nat.lt_succ_of_lt (h4 w (List.mem_of_mem_tail hw))
  · rename_i hgt
    dsimp only
    refine ⟨?_, ?_, h3, fun w hw => Nat.lt_succ_of_lt (h4 w hw)⟩
    · intro h0
      exact absurd h0 (by omega)
    · intro _
      by_cases h0 : 0 < m.S
      · exact h2 h0
      · have hlen : (m.Q.length : Int) = -m.S := h1 (by omega)
        have hlen0 : m.Q.length = 0 := by omega
        exact List.eq_nil_of_length_eq_zero hlen0

theorem mutexInv_of_reachable {m : MutexState} (h : MutexReachable m) :
    MutexInv m := by
  induction h with
  | init => exact mutexInv_init
  | acq t m _ ih => exact mutexInv_acq t m ih
  | rel m _ ih => exact mutexInv_rel m ih

/-- C2: the mutex wait queue is strict FIFO.  On any reachable mutex state,
an `acquire_mutex` call that finds the decremented `S` negative appends its
waiter at the tail of the queue, and a `release_mutex` call that finds the
incremented `S` ≤ 0 removes exactly the head (earliest-enqueued) waiter and
directs its wake signal at that one waiter only. -/
theorem C2_mutex_wait_queue_fifo (t : Nat) (m : MutexState)
    (hm : MutexReachable m) :
    (m.S - 1 < 0 →
      (acquire_mutex t m).Q = m.Q ++ [{ pthread := t, since := m.clock }]) ∧
    (m.S + 1 ≤ 0 →
      ∃ w rest, m.Q = w :: rest ∧
        (release_mutex m).1.Q = rest ∧ (release_mutex m).2 = some w) := by
  constructor
  · intro hneg
    simp only [acquire_mutex, if_pos hneg]
  · intro hle
    have hinv := mutexInv_of_reachable hm
    have hlen : (m.Q.length : Int) = -m.S := hinv.1 (by omega)
    obtain ⟨w, rest, hQ⟩ : ∃ w rest, m.Q = w :: rest := by
      cases hQ : m.Q with
      | nil =>
        rw [hQ] at hlen
        simp only [List.length_nil, Nat.cast_zero] at hlen
        omega
      | cons a l => exact ⟨a, l, rfl⟩
    refine ⟨w, rest, hQ, ?_, ?_⟩
    · simp only [release_mutex, if_pos hle, hQ, List.tail_cons]
    · simp only [release_mutex, if_pos hle, hQ, List.head?_cons]

/-- Witness for C2 at the concrete reachable state `exMtx` (`S = -1`, one
waiter), with thread 2 acquiring and with one release. -/
theorem C2_mutex_wait_queue_fifo_witness :
    (acquire_mutex 2 exMtx).Q = exMtx.Q ++ [{ pthread := 2, since := exMtx.clock }] ∧
    ∃ w rest, exMtx.Q = w :: rest ∧
      (release_mutex exMtx).1.Q = rest ∧ (release_mutex exMtx).2 = some w :=
  ⟨(C2_mutex_wait_queue_fifo 2 exMtx
      (MutexReachable.acq 1 _ (MutexReachable.acq 0 _ MutexReachable.init))).1
      (by decide),
   (C2_mutex_wait_queue_fifo 2 exMtx
      (MutexReachable.acq 1 _ (MutexReachable.acq 0 _ MutexReachable.init))).2
      (by decide)⟩

/-- C3: for every mutex state reachable from `init_mutex` by acquire/release
steps, whenever `S ≤ 0` the wait queue holds exactly `-S` waiters, and the
queue is ordered by the time its threads began waiting (strictly increasing
wait-start timestamps). -/
theorem C3_mutex_counter_queue_invariant (m : MutexState)
    (hm : MutexReachable m) :
    (m.S ≤ 0 → (m.Q.length : Int) = -m.S) ∧
    List.Pairwise (fun a b => a.since < b.since) m.Q := by
  have hinv := mutexInv_of_reachable hm
  exact ⟨hinv.1, hinv.2.2.1⟩

/-- Witness for C3 at the concrete reachable state `exMtx` (`S = -1`). -/
theorem C3_mutex_counter_queue_invariant_witness :
    (exMtx.Q.length : Int) = -exMtx.S ∧
    List.Pairwise (fun a b => a.since < b.since) exMtx.Q :=
  ⟨(C3_mutex_counter_queue_invariant exMtx
      (MutexReachable.acq 1 _ (MutexReachable.acq 0 _ MutexReachable.init))).1
      (by decide),
   (C3_mutex_counter_queue_invariant exMtx
      (MutexReachable.acq 1 _ (MutexReachable.acq 0 _ MutexReachable.init))).2⟩

/-- C10: uncontended fast path of `acquire_mutex`.  When `S ≥ 1` before the
call, the call returns with `S` decremented by one and the wait queue exactly
as before; the internally `malloc`ed waiter record is never linked into the
queue and is freed before returning (events `[alloc, free]`, no `link`). -/
theorem C10_acquire_mutex_fast_path (t : Nat) (m : MutexState)
    (h : 1 ≤ m.S) :
    (acquire_mutex t m).S = m.S - 1 ∧
    (acquire_mutex t m).Q = m.Q ∧
    acquire_mutex_waiter_events m = [WaiterEvent.alloc, WaiterEvent.free] := by
  have hfast : ¬ (m.S - 1 < 0) := by omega
  refine ⟨?_, ?_, ?_⟩ <;>
    simp only [acquire_mutex, acquire_mutex_waiter_events, if_neg hfast]

/-- Witness for C10 on a fresh mutex (`S = 1`). -/
theorem C10_acquire_mutex_fast_path_witness :
    (acquire_mutex 0 init_mutex).S = init_mutex.S - 1 ∧
    (acquire_mutex 0 init_mutex).Q = init_mutex.Q ∧
    acquire_mutex_waiter_events init_mutex = [WaiterEvent.alloc, WaiterEvent.free] :=
  C10_acquire_mutex_fast_path 0 init_mutex (by decide)

/-- Witness for C7: enqueue 5 then 7 into a fresh buffer of capacity 2 and
dequeue twice; the dequeued sequence is exactly [5, 7]. -/
theorem C7_fifo_roundtrip_witness :
    enqValues exOps = [5, 7] ++ rbContents exFinal ∧ [5, 7] = enqValues exOps :=
  ⟨(C7_fifo_roundtrip 2 exOps true exMem exFinal [5, 7] (by decide) rfl).1,
   (C7_fifo_roundtrip 2 exOps true exMem exFinal [5, 7] (by decide) rfl).2 rfl⟩

theorem updPC_same {α : Type} (f : Nat → α) (i : Nat) (v : α) :
    updPC f i v i = v := by
  simp [updPC]

theorem updPC_other {α : Type} (f : Nat → α) (i j : Nat) (v : α) (h : j ≠ i) :
    updPC f i v j = f j := by
  simp [updPC, h]

theorem compare_and_swap_snd (cell expected newval : Int) :
    (compare_and_swap cell expected newval).2 = cell := by
  rw [compare_and_swap]
  split <;> rfl

theorem compare_and_swap_fst_pos {cell expected : Int} (newval : Int)
    (h : cell = expected) :
    (compare_and_swap cell expected newval).1 = newval := by
  rw [compare_and_swap, if_pos h]

theorem compare_and_swap_fst_neg {cell expected : Int} (newval : Int)
    (h : cell ≠ expected) :
    (compare_and_swap cell expected newval).1 = cell := by
  rw [compare_and_swap, if_neg h]

theorem spinInv_init : SpinInv initSpinSys := by
  constructor
  · intro i j hi hj
    exact absurd hi (by simp [initSpinSys])
  · intro _ i
    simp [initSpinSys]

theorem spinInv_step {s s' : SpinSys} (hinv : SpinInv s) (hstep : SpinStep s s') :
    SpinInv s' := by
  obtain ⟨h1, h2⟩ := hinv
  cases hstep with
  | cas i s hpc hwin =>
    have hheld : s.held = 0 := by
      rw [compare_and_swap_snd] at hwin
      exact hwin
    simp only [SpinInv]
    constructor
    · intro j k hj hk
      by_cases hji : j = i
      · by_cases hki : k = i
        · rw [hji, hki]
        · rw [updPC_other _ _ _ _ hki] at hk
          exact absurd hk (h2 hheld k)
      · rw [updPC_other _ _ _ _ hji] at hj
        exact absurd hj (h2 hheld j)
    · intro hheld'
      rw [compare_and_swap_fst_pos 1 hheld] at hheld'
      exact absurd hheld' (by norm_num)
  | casFail i s hpc hlose =>
    have hheld : s.held ≠ 0 := by
      rw [compare_and_swap_snd] at hlose
      exact hlose
    simp only [SpinInv]
    constructor
    · intro j k hj hk
      exact h1 j k hj hk
    · intro h0
      rw [compare_and_swap_fst_neg 1 hheld] at h0
      exact h2 h0
  | rel i s hpc =>
    simp only [SpinInv]
    constructor
    · intro j k hj hk
      by_cases hji : j = i
      · rw [hji, updPC_same] at hj
        exact SpinPC.noConfusion hj
      · by_cases hki : k = i
        · rw [hki, updPC_same] at hk
          exact SpinPC.noConfusion hk
        · rw [updPC_other _ _ _ _ hji] at hj
          rw [updPC_other _ _ _ _ hki] at hk
          exact h1 j k hj hk
    · intro _ j hj
      by_cases hji : j = i
      · rw [hji, updPC_same] at hj
        exact SpinPC.noConfusion hj
      · rw [updPC_other _ _ _ _ hji] at hj
        exact hji (h1 j i hj hpc)

theorem spinInv_of_reachable {s : SpinSys} (h : SpinReachable s) : SpinInv s := by
  induction h with
  | init => exact spinInv_init
  | step t t' _ hstep ih => exact spinInv_step ih hstep

theorem mtxInv_initSys : MtxInv initMtxSys := by
  simp only [MtxInv, initMtxSys, mtxActive]
  refine ⟨?_, ?_, List.nodup_nil, ?_, ?_⟩
  · intro j k hj hk
    rcases hj with hj | hj <;> exact MtxPC.noConfusion hj
  · intro j hj
    exact absurd hj (List.not_mem_nil j)
  · rintro ⟨k, hk | hk⟩ <;> exact MtxPC.noConfusion hk
  · intro _
    simp

theorem mtxInv_acqFast {s : MtxSys} (i : Nat) (hpc : s.pc i = MtxPC.outside)
    (hS : 0 ≤ s.S - 1) (hinv : MtxInv s) :
    MtxInv { S := s.S - 1, Q := s.Q, pc := updPC s.pc i MtxPC.inside } := by
  obtain ⟨h1, h2, h3, h4, h5⟩ := hinv
  have hNoAct : ¬ ∃ k, mtxActive s.pc k := by
    rintro ⟨k, hk⟩
    have := h4 ⟨k, hk⟩
    omega
  have hQnil : s.Q = [] := by
    have := h5 hNoAct
    have hl0 : s.Q.length = 0 := by omega
    exact List.eq_nil_of_length_eq_zero hl0
  have hact' : ∀ j, mtxActive (updPC s.pc i MtxPC.inside) j → j = i := by
    intro j hj
    by_cases hji : j = i
    · exact hji
    · exfalso
      apply hNoAct
      refine ⟨j, ?_⟩
      simpa [mtxActive, updPC_other _ _ _ _ hji] using hj
  simp only [MtxInv]
  refine ⟨?_, ?_, h3, ?_, ?_⟩
  · intro j k hj hk
    rw [hact' j hj, hact' k hk]
  · intro j hjQ
    rw [hQnil] at hjQ
    exact absurd hjQ (List.not_mem_nil j)
  · intro _
    rw [hQnil]
    simp only [List.length_nil, Nat.cast_zero]
    have := h5 hNoAct
    rw [hQnil] at this
    simp only [List.length_nil, Nat.cast_zero] at this
    omega
  · intro hno
    exact absurd ⟨i, Or.inl (updPC_same s.pc i MtxPC.inside)⟩ hno

theorem mtxInv_acqBlock {s : MtxSys} (i : Nat) (hpc : s.pc i = MtxPC.outside)
    (hS : s.S - 1 < 0) (hinv : MtxInv s) :
    MtxInv { S := s.S - 1, Q := s.Q ++ [i], pc := updPC s.pc i MtxPC.waiting } := by
  obtain ⟨h1, h2, h3, h4, h5⟩ := hinv
  have hiQ : i ∉ s.Q := by
    intro hmem
    have := h2 i hmem
    rw [hpc] at this
    exact MtxPC.noConfusion this
  have hActEq : ∀ j, mtxActive (updPC s.pc i MtxPC.waiting) j ↔ mtxActive s.pc j := by
    intro j
    by_cases hji : j = i
    · subst hji
      simp [mtxActive, updPC_same, hpc]
    · simp [mtxActive, updPC_other _ _ _ _ hji]
  simp only [MtxInv]
  refine ⟨?_, ?_, ?_, ?_, ?_⟩
  · intro j k hj hk
    exact h1 j k ((hActEq j).1 hj) ((hActEq k).1 hk)
  · intro j hjQ
    rcases List.mem_append.1 hjQ with hj | hj
    · have hw := h2 j hj
      have hji : j ≠ i := by
        intro e
        rw [e, hpc] at hw
        exact MtxPC.noConfusion hw
      rw [updPC_other _ _ _ _ hji]
      exact hw
    · rw [List.mem_singleton] at hj
      rw [hj, updPC_same]
  · rw [List.nodup_append]
    refine ⟨h3, List.nodup_singleton i, ?_⟩
    intro a ha hb
    rw [List.mem_singleton] at hb
    rw [hb] at ha
    exact hiQ ha
  · rintro ⟨k, hk⟩
    have hS4 := h4 ⟨k, (hActEq k).1 hk⟩
    simp only [List.length_append, List.length_cons, List.length_nil]
    push_cast
    omega
  · intro hno
    have hno' : ¬ ∃ k, mtxActive s.pc k := by
      rintro ⟨k, hk⟩
      exact hno ⟨k, (hActEq k).2 hk⟩
    have hS5 := h5 hno'
    simp only [List.length_append, List.length_cons, List.length_nil]
    push_cast
    omega

theorem mtxInv_relWake {s : MtxSys} (i h : Nat) (rest : List Nat)
    (hpc : s.pc i = MtxPC.inside) (hS : s.S + 1 ≤ 0) (hQ : s.Q = h :: rest)
    (hinv : MtxInv s) :
    MtxInv { S := s.S + 1, Q := rest
             pc := updPC (updPC s.pc i MtxPC.outside) h MtxPC.signaled } := by
  obtain ⟨h1, h2, h3, h4, h5⟩ := hinv
  have hhQ : h ∈ s.Q := by
    rw [hQ]
    exact List.mem_cons_self h rest
  have hhw : s.pc h = MtxPC.waiting := h2 h hhQ
  have hSlen := h4 ⟨i, Or.inl hpc⟩
  have hrest : h ∉ rest := by
    rw [hQ] at h3
    exact (List.nodup_cons.1 h3).1
  have hact' : ∀ j,
      mtxActive (updPC (updPC s.pc i MtxPC.outside) h MtxPC.signaled) j → j = h := by
    intro j hj
    by_cases hjh : j = h
    · exact hjh
    · exfalso
      simp only [mtxActive, updPC_other _ _ _ _ hjh] at hj
      by_cases hji : j = i
      · rw [hji, updPC_same] at hj
        rcases hj with hj | hj <;> exact MtxPC.noConfusion hj
      · rw [updPC_other _ _ _ _ hji] at hj
        exact hji (h1 j i hj (Or.inl hpc))
  simp only [MtxInv]
  refine ⟨?_, ?_, ?_, ?_, ?_⟩
  · intro j k hj hk
    rw [hact' j hj, hact' k hk]
  · intro j hjrest
    have hjQ : j ∈ s.Q := by
      rw [hQ]
      exact List.mem_cons_of_mem h hjrest
    have hjw := h2 j hjQ
    have hjh : j ≠ h := by
      intro e
      rw [e] at hjrest
      exact hrest hjrest
    have hji : j ≠ i := by
      intro e
      rw [e, hpc] at hjw
      exact MtxPC.noConfusion hjw
    rw [updPC_other _ _ _ _ hjh, updPC_other _ _ _ _ hji]
    exact hjw
  · rw [hQ] at h3
    exact (List.nodup_cons.1 h3).2
  · intro _
    rw [hQ] at hSlen
    simp only [List.length_cons] at hSlen
    push_cast at hSlen ⊢
    omega
  · intro hno
    exact absurd ⟨h, Or.inr (updPC_same _ h MtxPC.signaled)⟩ hno

theorem mtxInv_relFast {s : MtxSys} (i : Nat) (hpc : s.pc i = MtxPC.inside)
    (hS : 0 < s.S + 1) (hinv : MtxInv s) :
    MtxInv { S := s.S + 1, Q := s.Q, pc := updPC s.pc i MtxPC.outside } := by
  obtain ⟨h1, h2, h3, h4, h5⟩ := hinv
  have hSlen := h4 ⟨i, Or.inl hpc⟩
  have hQnil : s.Q = [] := by
    have : s.Q.length = 0 := by omega
    exact List.eq_nil_of_length_eq_zero this
  have hnone : ∀ j, ¬ mtxActive (updPC s.pc i MtxPC.outside) j := by
    intro j hj
    by_cases hji : j = i
    · rw [hji] at hj
      simp [mtxActive, updPC_same] at hj
    · simp only [mtxActive, updPC_other _ _ _ _ hji] at hj
      exact hji (h1 j i hj (Or.inl hpc))
  simp only [MtxInv]
  refine ⟨?_, ?_, h3, ?_, ?_⟩
  · intro j k hj hk
    exact absurd hj (hnone j)
  · intro j hjQ
    rw [hQnil] at hjQ
    exact absurd hjQ (List.not_mem_nil j)
  · rintro ⟨k, hk⟩
    exact absurd hk (hnone k)
  · intro _
    rw [hQnil]
    rw [hQnil] at hSlen
    simp only [List.length_nil, Nat.cast_zero] at hSlen ⊢
    omega

theorem mtxInv_wake {s : MtxSys} (i : Nat) (hpc : s.pc i = MtxPC.signaled)
    (hinv : MtxInv s) :
    MtxInv { S := s.S, Q := s.Q, pc := updPC s.pc i MtxPC.inside } := by
  obtain ⟨h1, h2, h3, h4, h5⟩ := hinv
  have hActEq : ∀ j, mtxActive (updPC s.pc i MtxPC.inside) j ↔ mtxActive s.pc j := by
    intro j
    by_cases hji : j = i
    · subst hji
      simp [mtxActive, updPC_same, hpc]
    · simp [mtxActive, updPC_other _ _ _ _ hji]
  simp only [MtxInv]
  refine ⟨?_, ?_, h3, ?_, ?_⟩
  · intro j k hj hk
    exact h1 j k ((hActEq j).1 hj) ((hActEq k).1 hk)
  · intro j hjQ
    have hjw := h2 j hjQ
    have hji : j ≠ i := by
      intro e
      rw [e, hpc] at hjw
      exact MtxPC.noConfusion hjw
    rw [updPC_other _ _ _ _ hji]
    exact hjw
  · rintro ⟨k, hk⟩
    exact h4 ⟨k, (hActEq k).1 hk⟩
  · intro hno
    refine h5 ?_
    rintro ⟨k, hk⟩
    exact hno ⟨k, (hActEq k).2 hk⟩

theorem mtxInv_of_reachable {s : MtxSys} (h : MtxReachable s) : MtxInv s := by
  induction h with
  | init => exact mtxInv_initSys
  | step t t' _ hstep ih =>
    cases hstep with
    | acqFast i u hpc hS => exact mtxInv_acqFast i hpc hS ih
    | acqBlock i u hpc hS => exact mtxInv_acqBlock i hpc hS ih
    | relWake i h u rest hpc hS hQ => exact mtxInv_relWake i h rest hpc hS hQ ih
    | relFast i u hpc hS => exact mtxInv_relFast i hpc hS ih
    | wake i u hpc => exact mtxInv_wake i hpc ih

/-- C8: mutual exclusion for both primitives.  Over every interleaving of any
number of threads — spinlock: successful CAS entries and releases; mutex:
fast/blocking acquires, releases with or without a directed wake, and wakeups
— no two distinct threads are simultaneously inside the critical section
bounded by matching acquire/release calls of the same spinlock, and likewise
of the same mutex. -/
theorem C8_mutual_exclusion :
    (∀ s : SpinSys, SpinReachable s →
      ∀ i j, s.pc i = SpinPC.inside → s.pc j = SpinPC.inside → i = j) ∧
    (∀ s : MtxSys, MtxReachable s →
      ∀ i j, s.pc i = MtxPC.inside → s.pc j = MtxPC.inside → i = j) := by
  constructor
  · intro s hs i j hi hj
    exact (spinInv_of_reachable hs).1 i j hi hj
  · intro s hs i j hi hj
    exact (mtxInv_of_reachable hs).1 i j (Or.inl hi) (Or.inl hj)

/-- Witness for C8 at concrete reachable states: thread 0 inside the spinlock
after one successful CAS, and thread 1 inside the mutex after an uncontended
acquire. -/
theorem C8_mutual_exclusion_witness :
    (0 : Nat) = 0 ∧ (1 : Nat) = 1 :=
  ⟨C8_mutual_exclusion.1 exSpin
      (SpinReachable.step _ _ SpinReachable.init
        (SpinStep.cas 0 initSpinSys rfl rfl))
      0 0 rfl rfl,
   C8_mutual_exclusion.2 exMtxSys
      (MtxReachable.step _ _ MtxReachable.init
        (MtxStep.acqFast 1 initMtxSys rfl (by decide)))
      1 1 rfl rfl⟩

end PA3
